import Mathlib

/-!
# Verification of the DexProtectOscRS OSC engine

A shallow embedding, in Lean, of the parts of the repository that the
specification's claims talk about:

* the avatar-key parsing and message-emission pipeline of
  `DexOscHandler::handle_avatar_change` (`app/src/osc/dex.rs`),
* the echo-verification state updates of `DexOscHandler::handle`,
* the key-file byte-to-text decoding (`vecu8_to_str`, `vecu8_to_vecu16`,
  `utf16_buf_to_str`),
* the decryption front end (`decrpyt`),
* the key-file path construction (`std::path` `set_file_name` /
  `set_extension` semantics),
* the packet destructurer and its delayed-bundle buffer
  (`osc-handler/src/lib.rs`, `key_value.rs`),
* the fan-out dispatcher construction (`app/src/osc/multiplexer.rs`).

Modelling conventions:

* Rust strings are modelled as `List Char`; Rust byte vectors as `List Nat`
  with each element `< 256`.
* Rust `u32` values are modelled as `Nat` with the `< 2 ^ 32` bound made
  explicit where the source checks it (`u32::from_str` overflow).
* Rust `f32` arithmetic on parsed key values is modelled exactly, over `ℚ`:
  the source computes `whole as f32 + part as f32 / 10f32.powf(digits)`, which
  we model as the exact rational `whole + part / 10 ^ digits`.
* Fallible operations are modelled with `Option` / `Except`.
* Tokio task handles and bundle correlation UUIDs are modelled as `Nat`
  identifiers drawn from a counter (`uuid::Uuid::new_v4` only needs
  freshness here).
-/

/-! ## Rust string primitives used by `handle_avatar_change` -/

/-- Rust `str::replace(",", ".")` for the single-character pattern used at
dex.rs:153: every comma in the string becomes a dot. -/
def rust_replace_comma (s : List Char) : List Char :=
  s.map (fun c => if c = ',' then '.' else c)

/-- Rust `str::split("|")` (dex.rs:156).  Splitting the empty string yields
one empty field; every separator starts a new field. -/
def rust_split_bar : List Char → List (List Char)
  | [] => [[]]
  | c :: rest =>
    if c = '|' then [] :: rust_split_bar rest
    else
      match rust_split_bar rest with
      | f :: fs => (c :: f) :: fs
      | [] => [[c]]

/-- Decimal digit accumulation used by Rust `u32::from_str`: every character
must be an ASCII digit; the empty digit sequence is a parse error. -/
def parse_digits_go : List Char → Nat → Option Nat
  | [], acc => some acc
  | c :: rest, acc =>
    if c.isDigit then parse_digits_go rest (acc * 10 + (c.toNat - 48)) else none

def parse_digits : List Char → Option Nat
  | [] => none
  | cs => parse_digits_go cs 0

/-- Rust `u32::from_str` (used by `decode_number`, dex.rs:300-308): an
optional leading `+`, then one or more ASCII digits; values `≥ 2 ^ 32`
overflow and fail. -/
def u32_from_str (s : List Char) : Option Nat :=
  let cs := match s with
    | '+' :: rest => rest
    | other => other
  match parse_digits cs with
  | none => none
  | some n => if n < 2 ^ 32 then some n else none

/-- Model of `decode_number` (dex.rs:300-308): parse via `u32::from_str`; log-and-`None`
on failure.  The avatar id only feeds the log message, so it is dropped. -/
def decode_number (number : List Char) : Option Nat :=
  u32_from_str number

/-- Rust `str::find(".")` + `split_at` + removal of the leading dot
(dex.rs:172-175): split a value at its first dot, dropping the dot. `none`
when the value holds no dot. -/
def split_at_first_dot : List Char → Option (List Char × List Char)
  | [] => none
  | c :: rest =>
    if c = '.' then some ([], rest)
    else (split_at_first_dot rest).map (fun wp => (c :: wp.1, wp.2))

/-- The value-decoding block of `handle_avatar_change` (dex.rs:169-194):
returns `(whole, part, part_digits)`, or `none` when `decode_number` fails on
either component (which aborts the unlock). -/
def decode_value (s : List Char) : Option (Nat × Nat × Nat) :=
  match split_at_first_dot s with
  | some wp =>
    match decode_number wp.1, decode_number wp.2 with
    | some whole, some part => some (whole, part, wp.2.length)
    | _, _ => none
  | none =>
    match decode_number s with
    | some whole => some (whole, 0, 0)
    | none => none

/-- dex.rs:195 — `whole as f32 + part as f32 / 10f32.powf(part_digits)`,
modelled exactly over `ℚ`. -/
def amountQ (whole part digits : Nat) : ℚ :=
  (whole : ℚ) + (part : ℚ) / 10 ^ digits

/-- The value a key-file field is sent as (defaulting to `0` in the parse
failure case, which never gets sent). -/
def value_of (s : List Char) : ℚ :=
  match decode_value s with
  | some wpd => amountQ wpd.1 wpd.2.1 wpd.2.2
  | none => 0

/-- The `while i < len` loop of dex.rs:165-211 walks the split fields two at
a time; an odd trailing field is excluded by `len = split.len() - 1`
(dex.rs:157-162).  `to_pairs` performs exactly that grouping. -/
def to_pairs : List α → List (α × α)
  | a :: b :: rest => (a, b) :: to_pairs rest
  | _ => []

/-- dex.rs:196/199/204 — `format!("/avatar/parameters/{}", split[i+1])`. -/
def avatar_param_addr (name : List Char) : List Char :=
  ("/avatar/parameters/").data ++ name

/-- A packet handed to `OscSender::send_message_with_logs` by
`handle_avatar_change`.  Every message it emits carries exactly one
`OscType::Float` argument, so a message is modelled by its address and that
value; the bundle of dex.rs:214-222 carries the sentinel time-tag `(0, 1)`
and the accumulated messages. -/
inductive SentPacket where
  | message (addr : List Char) (value : ℚ)
  | bundle (tagSec tagFrac : Nat) (content : List (List Char × ℚ))
deriving DecidableEq

/-- The body of the `while` loop of dex.rs:165-211, one `(value, name)` pair
per step.  Returns `(sent, key, aborted)`: the packets passed to the sender
so far (discrete mode sends one message per pair as it is parsed), the
`key` vector accumulated for bundle mode, and whether a `decode_number`
failure made the function return early. -/
def unlock_loop (use_bundles : Bool) :
    List (List Char × List Char) → List SentPacket × List (List Char × ℚ) × Bool
  | [] => ([], [], false)
  | (v, n) :: rest =>
    match decode_value v with
    | none => ([], [], true)
    | some wpd =>
      let amount := amountQ wpd.1 wpd.2.1 wpd.2.2
      let addr := avatar_param_addr n
      let r := unlock_loop use_bundles rest
      ((if use_bundles then [] else [SentPacket.message addr amount]) ++ r.1,
       (if use_bundles then [(addr, amount)] else []) ++ r.2.1,
       r.2.2)

/-- The emission behaviour of `handle_avatar_change` (dex.rs:152-223) on an
already-decoded key string: comma normalization, split on `|`, odd-count
truncation, the decode-and-send loop, and — in bundle mode — the single
trailing bundle send with the sentinel time-tag.  Returns the list of packets
passed to the sender, in order, and whether the unlock aborted on a value
parse failure. -/
def handle_avatar_change_sends (decoded : List Char) (use_bundles : Bool) :
    List SentPacket × Bool :=
  let replaced := rust_replace_comma decoded
  let split := rust_split_bar replaced
  let r := unlock_loop use_bundles (to_pairs split)
  if r.2.2 then (r.1, true)
  else if use_bundles then (r.1 ++ [SentPacket.bundle 0 1 r.2.1], false)
  else (r.1, false)

/-- The `(value, name)` pairs a decoded key string is processed into. -/
def key_pairs (decoded : List Char) : List (List Char × List Char) :=
  to_pairs (rust_split_bar (rust_replace_comma decoded))

/-! ## Echo-verification state (dex.rs:69-120 and 224-252)

The handler state `params : Arc<Mutex<Option<(AbortHandle, HashMap<String,
f32>)>>>` is modelled as `Option (Nat × List (List Char × ℚ))`: a deadline
task identifier paired with the expected-echo map (an association list —
`HashMap` insertion replaces, so keys are distinct).  The `abort()` calls a
step performs are returned as a list of task identifiers. -/

/-- An OSC argument as inspected by the echo path: only "is it a float, and
which one" matters (dex.rs:88-103). -/
inductive MOscArg where
  | float (value : ℚ)
  | other
deriving DecidableEq

/-- Model of `HashMap::remove` (dex.rs:76): returns the removed value (if the key was
present) together with the map without that entry. -/
def map_remove (m : List (List Char × ℚ)) (k : List Char) :
    Option ℚ × List (List Char × ℚ) :=
  match m with
  | [] => (none, [])
  | (k', v) :: rest =>
    if k' = k then (some v, rest)
    else
      let r := map_remove rest k
      (r.1, (k', v) :: r.2)

/-- The `/avatar/parameters/` branch of `DexOscHandler::handle`
(dex.rs:69-120): consume the expected entry for this address; a wrong arity,
a missing or non-float first argument, or a value mismatch sets `replace`;
when the map has become empty the deadline task is aborted and `replace` is
set; `replace` clears the state.  Returns the new state and the aborted task
ids. -/
def handle_echo (st : Option (Nat × List (List Char × ℚ))) (addr : List Char)
    (args : List MOscArg) : Option (Nat × List (List Char × ℚ)) × List Nat :=
  match st with
  | none => (none, [])
  | some (abortH, params) =>
    let rem := map_remove params addr
    let mismatch : Bool :=
      match rem.1 with
      | none => false
      | some val =>
        decide (args.length > 1) ||
        (match args.head? with
         | none => true
         | some (MOscArg.float f) => decide (f ≠ val)
         | some MOscArg.other => true)
    let becameEmpty : Bool := decide (rem.2 = [])
    ((if mismatch || becameEmpty then none else some (abortH, rem.2)),
     if becameEmpty then [abortH] else [])

/-- The tail of `handle_avatar_change` (dex.rs:224-252): a deadline task is
spawned and `*self.params.lock() = Some((jh.abort_handle(), params))`
overwrites whatever state was installed before.  No `abort()` appears on this
path, so the returned abort list is empty whatever the previous state was. -/
def install_unlock_state (_prev : Option (Nat × List (List Char × ℚ)))
    (newTask : Nat) (params : List (List Char × ℚ)) :
    Option (Nat × List (List Char × ℚ)) × List Nat :=
  (some (newTask, params), [])

/-! ## Key-file path construction (dex.rs:130-137)

`path.set_file_name(id)` makes the final component `id`;
`path.set_extension("key")` replaces that component by
`file_stem ++ ".key"`.  The `std::path` semantics (outside this repository)
are modelled from their documented behaviour, for plain components (no path
separators). -/

/-- Split a file-name component at its LAST dot: `some (before, after)`,
or `none` when it holds no dot. -/
def last_dot_split : List Char → Option (List Char × List Char)
  | [] => none
  | c :: rest =>
    match last_dot_split rest with
    | some ba => some (c :: ba.1, ba.2)
    | none => if c = '.' then some ([], rest) else none

/-- Model of `std::path::Path::file_stem` for a plain non-empty component: the whole
name when there is no dot, the whole name when its only dot is the leading
one (hidden-file style), otherwise the part before the last dot. -/
def rust_file_stem (name : List Char) : List Char :=
  match last_dot_split name with
  | none => name
  | some ba => if ba.1 = [] then name else ba.1

/-- The final path component produced by dex.rs:131-136 for avatar id `id`:
`set_file_name(id)` then `set_extension("key")`, i.e. the stem of `id`
followed by `.key`. -/
def key_file_name (id : List Char) : List Char :=
  rust_file_stem id ++ ('.' :: ("key").data)

/-! ## Decryption front end (dex.rs:285-294)

AES-256 itself is an external library primitive (spec §1: "implementing
AES-CBC (assumed available)"); the block decryption with the compiled-in key
is therefore a parameter `dec`.  The compiled-in IV is not part of src/
(`dex_key.rs` is deliberately withheld; the `no_decryption_keys` feature
substitutes zeroes) and none of the claims depend on its value. -/

inductive DecryptError where
  | invalidLength
  | unpadError
deriving DecidableEq

/-- Split a byte string into 16-byte blocks (capacity-counting helper). -/
def chunks_aux : List Nat → List Nat → Nat → List (List Nat)
  | [], acc, _ => if acc = [] then [] else [acc.reverse]
  | b :: rest, acc, 0 => acc.reverse :: chunks_aux rest [b] 15
  | b :: rest, acc, k + 1 => chunks_aux rest (b :: acc) k

def chunks16 (l : List Nat) : List (List Nat) :=
  chunks_aux l [] 16

/-- CBC chaining: each plaintext block is the block decryption of the
ciphertext block XORed with the previous ciphertext block (the IV first). -/
def cbc_decrypt_blocks (dec : List Nat → List Nat) (prev : List Nat) :
    List (List Nat) → List Nat
  | [] => []
  | b :: rest => (List.zipWith (fun x y => Nat.xor x y) (dec b) prev)
      ++ cbc_decrypt_blocks dec b rest

/-- PKCS#7 unpadding: the last byte `n` must be in `1..=16` and the last `n`
bytes must all equal `n`. -/
def pkcs7_unpad (data : List Nat) : Option (List Nat) :=
  match data.getLast? with
  | none => none
  | some n =>
    if 1 ≤ n ∧ n ≤ 16 ∧ n ≤ data.length
        ∧ (data.drop (data.length - n)).all (fun b => b = n)
    then some (data.take (data.length - n))
    else none

/-- Model of `decrypt_padded_vec_mut::<Pkcs7>`: fails (`UnpadError`) unless the input
length is a block multiple and the decrypted tail carries valid padding. -/
def decrypt_padded (dec : List Nat → List Nat) (file : List Nat) :
    Option (List Nat) :=
  if file.length % 16 = 0 then
    pkcs7_unpad (cbc_decrypt_blocks dec (List.replicate 16 0) (chunks16 file))
  else none

/-- Model of `decrpyt` (dex.rs:285-294): on any decryption error the ORIGINAL input
bytes are returned together with the error; on success the decrypted bytes
and no error.  (`new_from_slices` cannot fail: the compiled-in key and IV
have the correct 32/16-byte lengths, so the only reachable error is
`UnpadError`.) -/
def decrpyt (dec : List Nat → List Nat) (file : List Nat) :
    List Nat × Option DecryptError :=
  match decrypt_padded dec file with
  | some v => (v, none)
  | none => (file, some DecryptError.unpadError)

/-! ## Key-file byte-to-text decoding (dex.rs:309-399)

Byte vectors are `List Nat` (each element `< 256`); decoded strings are
lists of Unicode code points. -/

/-- Byte-order marks distinguished by `unicode_bom::Bom::from` (an external
crate; modelled from the spec's table in §4.5.2, longest match first). -/
inductive Bom where
  | null | bocu1 | gb18030 | scsu | utfEbcdic | utf1 | utf7 | utf8
  | utf16be | utf16le | utf32be | utf32le
deriving DecidableEq

def bom_of (v : List Nat) : Bom :=
  match v with
  | 0x00 :: 0x00 :: 0xFE :: 0xFF :: _ => Bom.utf32be
  | 0xFF :: 0xFE :: 0x00 :: 0x00 :: _ => Bom.utf32le
  | 0xFE :: 0xFF :: _ => Bom.utf16be
  | 0xFF :: 0xFE :: _ => Bom.utf16le
  | 0xEF :: 0xBB :: 0xBF :: _ => Bom.utf8
  | 0xFB :: 0xEE :: 0x28 :: _ => Bom.bocu1
  | 0x84 :: 0x31 :: 0x95 :: 0x33 :: _ => Bom.gb18030
  | 0x0E :: 0xFE :: 0xFF :: _ => Bom.scsu
  | 0xDD :: 0x73 :: 0x66 :: 0x73 :: _ => Bom.utfEbcdic
  | 0xF7 :: 0x64 :: 0x4C :: _ => Bom.utf1
  | 0x2B :: 0x2F :: 0x76 :: _ => Bom.utf7
  | _ => Bom.null

/-- Model of `vecu8_to_vecu16` (dex.rs:369-389): byte pairs to 16-bit code units; an
odd trailing byte is re-appended on its own.  NOTE the source computes
`(v[i] as u16).shr(8) | v[i+1]` for big-endian input (and mirrored for
little-endian): a RIGHT shift of a byte by 8, which is always zero.  The
model reproduces that faithfully. -/
def vecu8_to_vecu16 (be : Bool) : List Nat → List Nat
  | b0 :: b1 :: rest =>
    (if be then Nat.lor (Nat.shiftRight b0 8) b1
     else Nat.lor (Nat.shiftRight b1 8) b0) :: vecu8_to_vecu16 be rest
  | [b] => [b]
  | [] => []

/-- Model of `utf16_buf_to_str` (dex.rs:390-399) via `char::decode_utf16`: surrogate
pairs combine, an unpaired surrogate fails the whole decode. -/
def utf16_buf_to_str : List Nat → Option (List Nat)
  | [] => some []
  | [u] => if 0xD800 ≤ u ∧ u ≤ 0xDFFF then none else some [u]
  | u :: v :: rest =>
    if 0xD800 ≤ u ∧ u ≤ 0xDBFF then
      if 0xDC00 ≤ v ∧ v ≤ 0xDFFF then
        (utf16_buf_to_str rest).map
          (fun l => (0x10000 + (u - 0xD800) * 0x400 + (v - 0xDC00)) :: l)
      else none
    else if 0xDC00 ≤ u ∧ u ≤ 0xDFFF then none
    else (utf16_buf_to_str (v :: rest)).map (fun l => u :: l)

/-- A UTF-8 continuation byte. -/
def utf8_cont (b : Nat) : Bool := 0x80 ≤ b && b ≤ 0xBF

/-- Constraint on the second byte of a multi-byte UTF-8 sequence (excludes
overlong encodings, surrogates and out-of-range code points). -/
def utf8_b2_ok (b b2 : Nat) : Bool :=
  if b = 0xE0 then 0xA0 ≤ b2 && b2 ≤ 0xBF
  else if b = 0xED then 0x80 ≤ b2 && b2 ≤ 0x9F
  else if b = 0xF0 then 0x90 ≤ b2 && b2 ≤ 0xBF
  else if b = 0xF4 then 0x80 ≤ b2 && b2 ≤ 0x8F
  else utf8_cont b2

/-- Model of `String::from_utf8` validation and decoding. -/
def utf8_decode : List Nat → Option (List Nat)
  | [] => some []
  | b :: rest =>
    if b ≤ 0x7F then (utf8_decode rest).map (fun l => b :: l)
    else if 0xC2 ≤ b ∧ b ≤ 0xDF then
      match rest with
      | b2 :: r =>
        if utf8_cont b2 then
          (utf8_decode r).map (fun l => ((b - 0xC0) * 0x40 + (b2 - 0x80)) :: l)
        else none
      | [] => none
    else if 0xE0 ≤ b ∧ b ≤ 0xEF then
      match rest with
      | b2 :: b3 :: r =>
        if utf8_b2_ok b b2 && utf8_cont b3 then
          (utf8_decode r).map
            (fun l => ((b - 0xE0) * 0x1000 + (b2 - 0x80) * 0x40 + (b3 - 0x80)) :: l)
        else none
      | _ => none
    else if 0xF0 ≤ b ∧ b ≤ 0xF4 then
      match rest with
      | b2 :: b3 :: b4 :: r =>
        if utf8_b2_ok b b2 && utf8_cont b3 && utf8_cont b4 then
          (utf8_decode r).map
            (fun l => ((b - 0xF0) * 0x40000 + (b2 - 0x80) * 0x1000
              + (b3 - 0x80) * 0x40 + (b4 - 0x80)) :: l)
        else none
      | _ => none
    else none

/-- Model of `vecu8_to_str` (dex.rs:309-368): BOM dispatch.  No BOM → UTF-8; UTF-8
BOM → strip three bytes, UTF-8; UTF-16 BOMs → convert to code units via
`vecu8_to_vecu16`, pop the BOM unit, decode; UTF-7 and the exotic BOMs are
refused. -/
def vecu8_to_str (v : List Nat) : Option (List Nat) :=
  match bom_of v with
  | Bom.null => utf8_decode v
  | Bom.bocu1 => none
  | Bom.gb18030 => none
  | Bom.scsu => none
  | Bom.utfEbcdic => none
  | Bom.utf1 => none
  | Bom.utf7 => none
  | Bom.utf8 => utf8_decode (v.drop 3)
  | Bom.utf16be => utf16_buf_to_str ((vecu8_to_vecu16 true v).drop 1)
  | Bom.utf16le => utf16_buf_to_str ((vecu8_to_vecu16 false v).drop 1)
  | Bom.utf32be => none
  | Bom.utf32le => none

/-- Modelled from the spec (§4.5.2: "UTF-16 BE or LE BOM → strip two bytes,
decode UTF-16 with the indicated endianness"): the INTENDED code-unit
assembly — for big-endian input the first byte of each pair is the high
byte, mirrored for little-endian. -/
def utf16_units_spec (be : Bool) : List Nat → List Nat
  | b0 :: b1 :: rest =>
    (if be then Nat.lor (Nat.shiftLeft b0 8) b1
     else Nat.lor (Nat.shiftLeft b1 8) b0) :: utf16_units_spec be rest
  | [b] => [b]
  | [] => []

/-- The spec-intended UTF-16 decoding of a BOM-prefixed key file: strip the
two BOM bytes, assemble code units with the indicated endianness, decode. -/
def utf16_decode_spec (be : Bool) (v : List Nat) : Option (List Nat) :=
  utf16_buf_to_str (utf16_units_spec be (v.drop 2))

/-! ## Packet destructurer and delayed-bundle buffer (osc-handler/src/lib.rs)

Messages are opaque to the destructurer (it only hands them to the message
handler), so a message is modelled by an identifier.  The conversion of an
OSC time-tag to an absolute instant (rosc / time crates, outside src/) is
modelled from the spec as the order-preserving 64-bit fixed-point reading of
the NTP tag; `now` is drawn from the same timeline.  Correlation UUIDs
(`uuid::Uuid::new_v4`) only need freshness and are drawn from a counter. -/

/-- The NTP time-tag `(seconds, fractional)` read as a point on the modelled
timeline. -/
def ntp_time (seconds fractional : Nat) : Nat :=
  seconds * 2 ^ 32 + fractional

/-- Model of `osc_types_arc::OscPacket`: a message or a time-tagged bundle of nested
packets. -/
inductive MPacket where
  | message (m : Nat) : MPacket
  | bundle (tagSec tagFrac : Nat) (content : List MPacket) : MPacket

/-- A `KeyValue` entry of the delayed-bundle buffer (key_value.rs:3-7):
compared by `key` (the bundle's release time) alone; `value` is the stored
bundle — its time-tag and content — and `uuid` the correlation id. -/
structure BufEntry where
  key : Nat
  tagSec : Nat
  tagFrac : Nat
  content : List MPacket
  uuid : Nat

/-- Model of `Results` (lib.rs:14-23), with each handler future replaced by the
message it will process. -/
inductive MResults where
  | message (m : Nat)
  | bundle (rs : List MResults)
  | notYetApplied (id : Nat)

mutual
/-- Model of `Results::to_messages_vec` (lib.rs:29-37): the messages a result tree
will run, depth first; `NotYetApplied` contributes nothing. -/
def to_messages_vec : MResults → List Nat
  | MResults.message m => [m]
  | MResults.bundle rs => to_messages_vec_list rs
  | MResults.notYetApplied _ => []

def to_messages_vec_list : List MResults → List Nat
  | [] => []
  | r :: rs => to_messages_vec r ++ to_messages_vec_list rs
end

/-- Model of `ReverseSortedVec::push` of `Reverse(entry)` (lib.rs:167): insertion
keeping the buffer sorted with the LARGEST key first (the vector stores
`Reverse(..)` ascending, i.e. keys descending). -/
def push_entry (e : BufEntry) : List BufEntry → List BufEntry
  | [] => [e]
  | x :: xs => if x.key ≤ e.key then e :: x :: xs else x :: push_entry e xs

mutual
/-- Model of `MessageDestructuring::internal_handle_packet` (lib.rs:172-184), with the
bodies of `handle_bundle`/`apply_bundle` inlined for structural recursion;
the named wrappers below restore the source's decomposition and are proved
equal to this. -/
def internal_handle_packet (now : Nat) :
    MPacket → List BufEntry → Nat → MResults × List BufEntry × Nat
  | MPacket.message m, buf, ctr => (MResults.message m, buf, ctr)
  | MPacket.bundle s f c, buf, ctr =>
    if s = 0 ∧ f = 1 then
      let r := apply_packets now c buf ctr
      (MResults.bundle r.1, r.2)
    else if ntp_time s f < now then
      let r := apply_packets now c buf ctr
      (MResults.bundle r.1, r.2)
    else
      (MResults.notYetApplied ctr,
       push_entry ⟨ntp_time s f, s, f, c, ctr⟩ buf, ctr + 1)

/-- The iterator of `apply_bundle` (lib.rs:151-153): handle each nested
packet in order, threading the buffer and the id counter. -/
def apply_packets (now : Nat) :
    List MPacket → List BufEntry → Nat → List MResults × List BufEntry × Nat
  | [], buf, ctr => ([], buf, ctr)
  | p :: ps, buf, ctr =>
    let r := internal_handle_packet now p buf ctr
    let rs := apply_packets now ps r.2.1 r.2.2
    (r.1 :: rs.1, rs.2)
end

/-- Model of `MessageDestructuring::apply_bundle` (lib.rs:150-155). -/
def apply_bundle (now : Nat) (c : List MPacket) (buf : List BufEntry)
    (ctr : Nat) : MResults × List BufEntry × Nat :=
  let r := apply_packets now c buf ctr
  (MResults.bundle r.1, r.2)

/-- Model of `MessageDestructuring::handle_bundle` (lib.rs:157-170): apply when the
time-tag is the sentinel `(0, 1)`, or when `now_utc() > date_time` — the tag
is STRICTLY in the past; otherwise enqueue under a fresh correlation id and
answer `NotYetApplied`. -/
def handle_bundle (now s f : Nat) (c : List MPacket) (buf : List BufEntry)
    (ctr : Nat) : MResults × List BufEntry × Nat :=
  if s = 0 ∧ f = 1 then apply_bundle now c buf ctr
  else if ntp_time s f < now then apply_bundle now c buf ctr
  else
    (MResults.notYetApplied ctr,
     push_entry ⟨ntp_time s f, s, f, c, ctr⟩ buf, ctr + 1)

/-- Rust `slice::partition_point` (lib.rs:130).  The source's binary search
assumes a partitioned slice (the buffer is kept key-descending, and the
predicate is `key > now`); on such input the result is the length of the
true-prefix, which is what this computes. -/
def partition_point (pred : BufEntry → Bool) (l : List BufEntry) : Nat :=
  (l.takeWhile pred).length

/-- The `map` over the drained entries (lib.rs:139-141): apply each drained
bundle, pairing its result with the entry's correlation id, threading the
remaining buffer and the id counter. -/
def apply_drained (now : Nat) :
    List BufEntry → List BufEntry → Nat →
    List (Nat × MResults) × List BufEntry × Nat
  | [], buf, ctr => ([], buf, ctr)
  | e :: es, buf, ctr =>
    let r := apply_bundle now e.content buf ctr
    let rs := apply_drained now es r.2.1 r.2.2
    ((e.uuid, r.1) :: rs.1, rs.2)

/-- Model of `MessageDestructuring::check_osc_bundles` (lib.rs:127-142): partition the
buffer at `key > now`, drain the tail (the entries due at or before `now`),
and apply each drained bundle in the drained order. -/
def check_osc_bundles (now : Nat) (buf : List BufEntry) (ctr : Nat) :
    List (Nat × MResults) × List BufEntry × Nat :=
  let pp := partition_point (fun x => decide (now < x.key)) buf
  apply_drained now (buf.drop pp) (buf.take pp) ctr

mutual
/-- The specification-side walk of a packet tree at time `now`: an immediate
bundle (sentinel tag, or tag strictly before `now`) is descended in order;
a future-dated bundle contributes no messages. -/
def walk_messages (now : Nat) : MPacket → List Nat
  | MPacket.message m => [m]
  | MPacket.bundle s f c =>
    if (s = 0 ∧ f = 1) ∨ ntp_time s f < now then walk_messages_list now c else []

def walk_messages_list (now : Nat) : List MPacket → List Nat
  | [] => []
  | p :: ps => walk_messages now p ++ walk_messages_list now ps
end

/-! ## Fan-out dispatcher construction (app/src/osc/multiplexer.rs:13-47) -/

/-- Model of `Vec::dedup` (multiplexer.rs:14): removes CONSECUTIVE repeated elements
only, keeping the first of each run. -/
def rust_dedup_go (cur : Nat) : List Nat → List Nat
  | [] => [cur]
  | b :: rest => if cur = b then rust_dedup_go cur rest else cur :: rust_dedup_go b rest

def rust_dedup : List Nat → List Nat
  | [] => []
  | a :: rest => rust_dedup_go a rest

/-- Model of `MultiplexerOsc::new` (multiplexer.rs:13-47): dedup the forward-port
list, bind one UDP socket per remaining port (concurrently, via a join set);
any failed bind fails the whole construction.  `bind_fails` abstracts the
OS-level bind outcome per port; on success the bound ports are returned. -/
def multiplexer_new (bind_fails : Nat → Bool) (forward_ports : List Nat) :
    Except Unit (List Nat) :=
  let ports := rust_dedup forward_ports
  if ports.any bind_fails then Except.error () else Except.ok ports

/-! ## Helper lemmas about the key-parse pipeline -/

theorem rust_split_bar_ne_nil : ∀ s : List Char, rust_split_bar s ≠ []
  | [] => by simp [rust_split_bar]
  | c :: rest => by
    simp only [rust_split_bar]
    split
    · simp
    · cases h : rust_split_bar rest with
      | nil => simp
      | cons f fs => simp

theorem to_pairs_length : ∀ l : List α, (to_pairs l).length = l.length / 2
  | [] => by simp [to_pairs]
  | [_] => by simp [to_pairs]
  | _ :: _ :: rest => by
    simp only [to_pairs, List.length_cons, to_pairs_length rest]
    omega

theorem to_pairs_dropLast : ∀ l : List α, l.length % 2 = 1 → to_pairs l = to_pairs l.dropLast
  | [], h => by simp at h
  | [_], _ => by simp [to_pairs]
  | a :: b :: rest, h => by
    have hrest : rest.length % 2 = 1 := by
      simp only [List.length_cons] at h
      omega
    have hne : rest ≠ [] := by
      intro he
      rw [he] at hrest
      simp at hrest
    calc to_pairs (a :: b :: rest)
        = (a, b) :: to_pairs rest := rfl
      _ = (a, b) :: to_pairs rest.dropLast := by rw [to_pairs_dropLast rest hrest]
      _ = to_pairs ((a :: b :: rest).dropLast) := by
          cases rest with
          | nil => exact absurd rfl hne
          | cons x xs => rfl

theorem to_pairs_map (f : α → β) : ∀ l : List α,
    to_pairs (l.map f) = (to_pairs l).map (fun ab => (f ab.1, f ab.2))
  | [] => by simp [to_pairs]
  | [_] => by simp [to_pairs]
  | a :: b :: rest => by
    simp only [List.map_cons, to_pairs, to_pairs_map f rest]

/-- Comma-to-dot replacement acts fieldwise through the `|` split: replacing
commas never creates or destroys a `|`. -/
theorem rust_split_bar_replace : ∀ s : List Char,
    rust_split_bar (rust_replace_comma s) = (rust_split_bar s).map rust_replace_comma
  | [] => by simp [rust_split_bar, rust_replace_comma]
  | c :: rest => by
    by_cases hc : c = '|'
    · subst hc
      have h1 : rust_replace_comma ('|' :: rest) = '|' :: rust_replace_comma rest := by
        simp [rust_replace_comma]
      rw [h1]
      simp only [rust_split_bar, if_pos rfl, rust_split_bar_replace rest, List.map_cons]
      simp [rust_replace_comma]
    · have hc' : (if c = ',' then '.' else c) ≠ '|' := by
        split
        · decide
        · exact hc
      have h1 : rust_replace_comma (c :: rest) =
          (if c = ',' then '.' else c) :: rust_replace_comma rest := by
        simp [rust_replace_comma]
      rw [h1]
      cases hsp : rust_split_bar rest with
      | nil => exact absurd hsp (rust_split_bar_ne_nil rest)
      | cons f fs =>
        simp only [rust_split_bar, if_neg hc', if_neg hc, rust_split_bar_replace rest, hsp,
          List.map_cons]
        simp [rust_replace_comma]

/-- When every value of the pair list decodes, the unlock loop neither aborts
nor reorders: discrete mode sends one message per pair in input order, bundle
mode accumulates one bundle entry per pair in input order. -/
theorem unlock_loop_ok (ub : Bool) : ∀ pairs : List (List Char × List Char),
    (∀ vn ∈ pairs, (decode_value vn.1).isSome) →
    unlock_loop ub pairs =
      ((if ub then [] else
          pairs.map (fun vn => SentPacket.message (avatar_param_addr vn.2) (value_of vn.1))),
       (if ub then pairs.map (fun vn => (avatar_param_addr vn.2, value_of vn.1)) else []),
       false)
  | [], _ => by cases ub <;> simp [unlock_loop]
  | (v, n) :: rest, h => by
    have hv : (decode_value v).isSome := h (v, n) (by simp)
    obtain ⟨wpd, hwpd⟩ := Option.isSome_iff_exists.mp hv
    have hrest := unlock_loop_ok ub rest (fun vn hvn => h vn (List.mem_cons_of_mem _ hvn))
    have hval : value_of v = amountQ wpd.1 wpd.2.1 wpd.2.2 := by
      simp [value_of, hwpd]
    cases ub <;>
      simp [unlock_loop, hwpd, hrest, hval]

/-! ## Claim theorems: key parsing and emission (C1, C8, C9) -/

/-- C1: for every decoded avatar-key plaintext that splits on `|` into an
even number of fields whose values all parse (grammar match plus unsigned
32-bit decode of the whole and fractional parts, after comma-to-dot
normalization), discrete-send mode emits exactly N messages, one per
`(value, name)` pair in input order, each addressed
`/avatar/parameters/<name>` and carrying the single float value
`whole + fractional / 10 ^ digits`; bundle mode instead sends exactly one
bundle (sentinel tag `(0, 1)`) containing those N messages. -/
theorem avatar_key_emission (decoded : List Char)
    (heven : (rust_split_bar (rust_replace_comma decoded)).length % 2 = 0)
    (hdec : ∀ vn ∈ key_pairs decoded, (decode_value vn.1).isSome) :
    (handle_avatar_change_sends decoded false).1 =
      (key_pairs decoded).map
        (fun vn => SentPacket.message (avatar_param_addr vn.2) (value_of vn.1))
    ∧ (handle_avatar_change_sends decoded false).1.length = (key_pairs decoded).length
    ∧ (handle_avatar_change_sends decoded true).1 =
      [SentPacket.bundle 0 1 ((key_pairs decoded).map
        (fun vn => (avatar_param_addr vn.2, value_of vn.1)))]
    ∧ 2 * (key_pairs decoded).length = (rust_split_bar (rust_replace_comma decoded)).length
    ∧ ∀ vn ∈ key_pairs decoded, ∀ w p d, decode_value vn.1 = some (w, p, d) →
        value_of vn.1 = (w : ℚ) + (p : ℚ) / 10 ^ d := by
  have hd := unlock_loop_ok false (key_pairs decoded) hdec
  have hb := unlock_loop_ok true (key_pairs decoded) hdec
  refine ⟨?_, ?_, ?_, ?_, ?_⟩
  · simp only [handle_avatar_change_sends, key_pairs] at hd ⊢
    rw [hd]
    simp
  · simp only [handle_avatar_change_sends, key_pairs] at hd ⊢
    rw [hd]
    simp
  · simp only [handle_avatar_change_sends, key_pairs] at hb ⊢
    rw [hb]
    simp
  · have := to_pairs_length (rust_split_bar (rust_replace_comma decoded))
    simp only [key_pairs]
    omega
  · intro vn _ w p d hvn
    simp [value_of, hvn, amountQ]

theorem avatar_key_emission_witness :
    ((rust_split_bar (rust_replace_comma ("1.5|ParamA|0|ParamB").data)).length % 2 = 0)
    ∧ (handle_avatar_change_sends ("1.5|ParamA|0|ParamB").data false).1.length =
        (key_pairs ("1.5|ParamA|0|ParamB").data).length :=
  ⟨by decide, (avatar_key_emission ("1.5|ParamA|0|ParamB").data (by decide) (by decide)).2.1⟩

/-- C8: a decoded key string splitting into an odd number of fields is
processed exactly like the same split with the trailing orphan dropped:
`(count - 1) / 2` pairs are processed, and the odd count by itself never
aborts the unlock (the abort flag stays false whenever the values of the
processed pairs decode). -/
theorem odd_key_truncation (decoded : List Char)
    (hodd : (rust_split_bar (rust_replace_comma decoded)).length % 2 = 1) :
    key_pairs decoded = to_pairs ((rust_split_bar (rust_replace_comma decoded)).dropLast)
    ∧ 2 * (key_pairs decoded).length + 1 =
        (rust_split_bar (rust_replace_comma decoded)).length
    ∧ ∀ ub : Bool, (∀ vn ∈ key_pairs decoded, (decode_value vn.1).isSome) →
        (handle_avatar_change_sends decoded ub).2 = false := by
  refine ⟨to_pairs_dropLast _ hodd, ?_, ?_⟩
  · have := to_pairs_length (rust_split_bar (rust_replace_comma decoded))
    simp only [key_pairs]
    omega
  · intro ub hdec
    have h := unlock_loop_ok ub (key_pairs decoded) hdec
    simp only [handle_avatar_change_sends, key_pairs] at h ⊢
    rw [h]
    cases ub <;> simp

theorem odd_key_truncation_witness :
    ((rust_split_bar (rust_replace_comma ("1.0|A|2.0").data)).length % 2 = 1)
    ∧ key_pairs ("1.0|A|2.0").data =
        to_pairs ((rust_split_bar (rust_replace_comma ("1.0|A|2.0").data)).dropLast) :=
  ⟨by decide, (odd_key_truncation ("1.0|A|2.0").data (by decide)).1⟩

/-- C9: comma-to-dot normalization is applied to the whole decoded string
BEFORE the `|` split, so a comma inside a parameter name is replaced too:
each emitted address is `/avatar/parameters/` followed by the name field of
the ORIGINAL string with every comma replaced by a dot. -/
theorem comma_in_name_normalized (decoded : List Char)
    (hdec : ∀ vn ∈ key_pairs decoded, (decode_value vn.1).isSome) :
    (handle_avatar_change_sends decoded false).1 =
      (to_pairs (rust_split_bar decoded)).map
        (fun vn => SentPacket.message (avatar_param_addr (rust_replace_comma vn.2))
          (value_of (rust_replace_comma vn.1))) := by
  have h := unlock_loop_ok false (key_pairs decoded) hdec
  simp only [handle_avatar_change_sends, key_pairs] at h ⊢
  rw [h]
  simp only [Bool.false_eq_true, if_false]
  rw [rust_split_bar_replace decoded, to_pairs_map]
  simp

theorem comma_in_name_normalized_witness :
    (∀ vn ∈ key_pairs ("1|A,B").data, (decode_value vn.1).isSome)
    ∧ (handle_avatar_change_sends ("1|A,B").data false).1 =
      (to_pairs (rust_split_bar ("1|A,B").data)).map
        (fun vn => SentPacket.message (avatar_param_addr (rust_replace_comma vn.2))
          (value_of (rust_replace_comma vn.1))) :=
  ⟨by decide, comma_in_name_normalized ("1|A,B").data (by decide)⟩

/-! ## Claim theorems: destructurer, echo state, fan-out, decoding, decryption, paths -/

mutual
theorem to_messages_internal (now : Nat) (p : MPacket) : ∀ buf ctr,
    to_messages_vec (internal_handle_packet now p buf ctr).1 = walk_messages now p := by
  cases p with
  | message m =>
    intro buf ctr
    rfl
  | bundle s f c =>
    intro buf ctr
    simp only [internal_handle_packet, walk_messages]
    by_cases h1 : s = 0 ∧ f = 1
    · simp only [if_pos h1, if_pos (Or.inl h1), to_messages_vec]
      exact to_messages_apply now c buf ctr
    · by_cases h2 : ntp_time s f < now
      · simp only [if_neg h1, if_pos h2, if_pos (Or.inr h2), to_messages_vec]
        exact to_messages_apply now c buf ctr
      · have h3 : ¬((s = 0 ∧ f = 1) ∨ ntp_time s f < now) := by tauto
        simp only [if_neg h1, if_neg h2, if_neg h3, to_messages_vec]

theorem to_messages_apply (now : Nat) (l : List MPacket) : ∀ buf ctr,
    to_messages_vec_list (apply_packets now l buf ctr).1 = walk_messages_list now l := by
  cases l with
  | nil =>
    intro buf ctr
    rfl
  | cons p ps =>
    intro buf ctr
    simp only [apply_packets, walk_messages_list, to_messages_vec_list]
    rw [to_messages_internal now p buf ctr]
    rw [to_messages_apply now ps (internal_handle_packet now p buf ctr).2.1
      (internal_handle_packet now p buf ctr).2.2]
end

theorem internal_handle_packet_bundle (now s f : Nat) (c : List MPacket)
    (buf : List BufEntry) (ctr : Nat) :
    internal_handle_packet now (MPacket.bundle s f c) buf ctr =
      handle_bundle now s f c buf ctr := by
  simp only [internal_handle_packet, handle_bundle, apply_bundle]

/-- C2 (amended): when a bundle's time-tag is the sentinel `(0, 1)` or is
STRICTLY less than the current time, its nested packets are descended and
applied in order, recursively to arbitrary depth (the messages the returned
result tree runs are exactly the depth-first walk of the content); otherwise
— including a time-tag exactly equal to the current time, where the original
claim said "less than or equal" — the bundle is enqueued in the
delayed-bundle buffer and `NotYetApplied` with a fresh correlation id is
returned. -/
theorem handle_bundle_timing (now s f : Nat) (c : List MPacket)
    (buf : List BufEntry) (ctr : Nat) :
    ((s = 0 ∧ f = 1) ∨ ntp_time s f < now →
      handle_bundle now s f c buf ctr = apply_bundle now c buf ctr
      ∧ to_messages_vec (handle_bundle now s f c buf ctr).1 =
          walk_messages_list now c)
    ∧ (¬(s = 0 ∧ f = 1) → now ≤ ntp_time s f →
      handle_bundle now s f c buf ctr =
        (MResults.notYetApplied ctr,
          push_entry ⟨ntp_time s f, s, f, c, ctr⟩ buf, ctr + 1)) := by
  constructor
  · intro h
    have heq : handle_bundle now s f c buf ctr = apply_bundle now c buf ctr := by
      rcases h with h1 | h2
      · simp only [handle_bundle, if_pos h1]
      · by_cases h1 : s = 0 ∧ f = 1
        · simp only [handle_bundle, if_pos h1]
        · simp only [handle_bundle, if_neg h1, if_pos h2]
    refine ⟨heq, ?_⟩
    rw [heq]
    simp only [apply_bundle, to_messages_vec]
    exact to_messages_apply now c buf ctr
  · intro h1 h2
    have h2' : ¬(ntp_time s f < now) := by omega
    simp only [handle_bundle, if_neg h1, if_neg h2']

theorem handle_bundle_timing_witness :
    ((0 = 0 ∧ 1 = 1) ∨ ntp_time 0 1 < 5)
    ∧ to_messages_vec (handle_bundle 5 0 1 [MPacket.message 7] [] 0).1 = [7]
    ∧ ¬(3 = 0 ∧ 5 = 1) ∧ (0 : Nat) ≤ ntp_time 3 5
    ∧ handle_bundle 0 3 5 [] [] 0 =
        (MResults.notYetApplied 0, push_entry ⟨ntp_time 3 5, 3, 5, [], 0⟩ [], 1) :=
  ⟨Or.inl ⟨rfl, rfl⟩,
   ((handle_bundle_timing 5 0 1 [MPacket.message 7] [] 0).1 (Or.inl ⟨rfl, rfl⟩)).2.trans rfl,
   by decide, Nat.zero_le _,
   (handle_bundle_timing 0 3 5 [] [] 0).2 (by decide) (Nat.zero_le _)⟩

/-- C2 counterexample: a non-sentinel bundle whose time-tag exactly equals
the current time (`timetag ≤ now` holds) is NOT descended: the destructurer
answers `NotYetApplied` and emits none of its nested messages. -/
theorem bundle_at_now_counterexample :
    ntp_time 3 5 ≤ ntp_time 3 5
    ∧ ¬(3 = 0 ∧ 5 = 1)
    ∧ (internal_handle_packet (ntp_time 3 5) (MPacket.bundle 3 5 [MPacket.message 7]) [] 0).1 =
        MResults.notYetApplied 0
    ∧ to_messages_vec
        (internal_handle_packet (ntp_time 3 5) (MPacket.bundle 3 5 [MPacket.message 7]) [] 0).1 = [] :=
  ⟨le_refl _, by decide, rfl, rfl⟩

theorem mem_push_entry (e : BufEntry) : ∀ l (x : BufEntry),
    x ∈ push_entry e l ↔ x = e ∨ x ∈ l
  | [], x => by simp [push_entry]
  | y :: ys, x => by
    simp only [push_entry]
    split
    · simp
    · simp only [List.mem_cons, mem_push_entry e ys x]
      tauto

mutual
theorem internal_handle_packet_effects (now : Nat) (p : MPacket) : ∀ buf ctr,
    ctr ≤ (internal_handle_packet now p buf ctr).2.2
    ∧ (∀ e ∈ buf, e ∈ (internal_handle_packet now p buf ctr).2.1)
    ∧ (∀ e ∈ (internal_handle_packet now p buf ctr).2.1, e ∈ buf ∨ ctr ≤ e.uuid) := by
  cases p with
  | message m =>
    intro buf ctr
    exact ⟨le_refl _, fun e he => he, fun e he => Or.inl he⟩
  | bundle s f c =>
    intro buf ctr
    simp only [internal_handle_packet]
    by_cases h1 : s = 0 ∧ f = 1
    · simp only [if_pos h1]
      exact apply_packets_effects now c buf ctr
    · by_cases h2 : ntp_time s f < now
      · simp only [if_neg h1, if_pos h2]
        exact apply_packets_effects now c buf ctr
      · simp only [if_neg h1, if_neg h2]
        refine ⟨Nat.le_succ _, ?_, ?_⟩
        · intro e he
          exact (mem_push_entry _ _ _).mpr (Or.inr he)
        · intro e he
          rcases (mem_push_entry _ _ _).mp he with h | h
          · right
            rw [h]
          · exact Or.inl h

theorem apply_packets_effects (now : Nat) (l : List MPacket) : ∀ buf ctr,
    ctr ≤ (apply_packets now l buf ctr).2.2
    ∧ (∀ e ∈ buf, e ∈ (apply_packets now l buf ctr).2.1)
    ∧ (∀ e ∈ (apply_packets now l buf ctr).2.1, e ∈ buf ∨ ctr ≤ e.uuid) := by
  cases l with
  | nil =>
    intro buf ctr
    exact ⟨le_refl _, fun e he => he, fun e he => Or.inl he⟩
  | cons p ps =>
    intro buf ctr
    simp only [apply_packets]
    obtain ⟨hc1, hm1, hf1⟩ := internal_handle_packet_effects now p buf ctr
    obtain ⟨hc2, hm2, hf2⟩ := apply_packets_effects now ps
      (internal_handle_packet now p buf ctr).2.1 (internal_handle_packet now p buf ctr).2.2
    refine ⟨le_trans hc1 hc2, ?_, ?_⟩
    · intro e he
      exact hm2 e (hm1 e he)
    · intro e he
      rcases hf2 e he with h | h
      · rcases hf1 e h with h' | h'
        · exact Or.inl h'
        · exact Or.inr h'
      · exact Or.inr (le_trans hc1 h)
end

theorem apply_bundle_effects (now : Nat) (c : List MPacket) (buf : List BufEntry) (ctr : Nat) :
    ctr ≤ (apply_bundle now c buf ctr).2.2
    ∧ (∀ e ∈ buf, e ∈ (apply_bundle now c buf ctr).2.1)
    ∧ (∀ e ∈ (apply_bundle now c buf ctr).2.1, e ∈ buf ∨ ctr ≤ e.uuid) := by
  simp only [apply_bundle]
  exact apply_packets_effects now c buf ctr

theorem apply_drained_effects (now : Nat) : ∀ (es : List BufEntry) (buf : List BufEntry) (ctr : Nat),
    ctr ≤ (apply_drained now es buf ctr).2.2
    ∧ (∀ e ∈ buf, e ∈ (apply_drained now es buf ctr).2.1)
    ∧ (∀ e ∈ (apply_drained now es buf ctr).2.1, e ∈ buf ∨ ctr ≤ e.uuid)
  | [], buf, ctr => ⟨le_refl _, fun e he => he, fun e he => Or.inl he⟩
  | e :: es, buf, ctr => by
    simp only [apply_drained]
    obtain ⟨hc1, hm1, hf1⟩ := apply_bundle_effects now e.content buf ctr
    obtain ⟨hc2, hm2, hf2⟩ := apply_drained_effects now es
      (apply_bundle now e.content buf ctr).2.1 (apply_bundle now e.content buf ctr).2.2
    refine ⟨le_trans hc1 hc2, ?_, ?_⟩
    · intro x hx
      exact hm2 x (hm1 x hx)
    · intro x hx
      rcases hf2 x hx with h | h
      · rcases hf1 x h with h' | h'
        · exact Or.inl h'
        · exact Or.inr h'
      · exact Or.inr (le_trans hc1 h)

theorem apply_drained_fst (now : Nat) : ∀ (es : List BufEntry) (buf : List BufEntry) (ctr : Nat),
    (apply_drained now es buf ctr).1.map Prod.fst = es.map BufEntry.uuid
  | [], _, _ => rfl
  | e :: es, buf, ctr => by
    simp only [apply_drained, List.map_cons]
    rw [apply_drained_fst now es]

theorem take_partition_point (pred : BufEntry → Bool) : ∀ l : List BufEntry,
    l.take (partition_point pred l) = l.takeWhile pred
  | [] => rfl
  | x :: xs => by
    simp only [partition_point, List.takeWhile_cons]
    by_cases h : pred x
    · simp only [h, if_true, List.length_cons, List.take_succ_cons]
      rw [← partition_point, take_partition_point pred xs]
    · simp [h]

theorem drop_partition_point (pred : BufEntry → Bool) : ∀ l : List BufEntry,
    l.drop (partition_point pred l) = l.dropWhile pred
  | [] => rfl
  | x :: xs => by
    simp only [partition_point, List.takeWhile_cons, List.dropWhile_cons]
    by_cases h : pred x
    · simp only [h, if_true, List.length_cons, List.drop_succ_cons]
      rw [← partition_point, drop_partition_point pred xs]
    · simp [h]

theorem dropWhile_key_le (now : Nat) : ∀ l : List BufEntry,
    List.Pairwise (fun a b => b.key ≤ a.key) l →
    ∀ e ∈ l.dropWhile (fun x => decide (now < x.key)), e.key ≤ now
  | [], _, e, he => by simp [List.dropWhile] at he
  | x :: xs, hp, e, he => by
    rw [List.dropWhile_cons] at he
    by_cases hx : now < x.key
    · simp only [decide_eq_true hx, if_true] at he
      exact dropWhile_key_le now xs hp.of_cons e he
    · simp only [decide_eq_false hx, Bool.false_eq_true, if_false] at he
      rcases List.mem_cons.mp he with h | h
      · subst h
        omega
      · have := (List.pairwise_cons.mp hp).1 e h
        omega

/-- C3 (amended): on a key-descending buffer, `check_osc_bundles` removes
and returns exactly the entries with release time at or before `now`, each
paired with its correlation id, in LATEST-release-time-first (descending)
order — not earliest-first as the original claim said; entries strictly in
the future stay untouched (they remain in the buffer), everything in the
final buffer is a kept entry or a freshly enqueued one, and when all buffered
ids predate the counter and are distinct, a drained entry's id never remains
in the buffer, so its bundle is not returned by a later call. -/
theorem check_osc_bundles_drain (now : Nat) (buf : List BufEntry) (ctr : Nat)
    (hsorted : List.Pairwise (fun a b => b.key ≤ a.key) buf) :
    (∀ e ∈ buf.take (partition_point (fun x => decide (now < x.key)) buf), now < e.key)
    ∧ (∀ e ∈ buf.drop (partition_point (fun x => decide (now < x.key)) buf), e.key ≤ now)
    ∧ (check_osc_bundles now buf ctr).1.map Prod.fst =
        (buf.drop (partition_point (fun x => decide (now < x.key)) buf)).map BufEntry.uuid
    ∧ List.Pairwise (fun a b => b.key ≤ a.key)
        (buf.drop (partition_point (fun x => decide (now < x.key)) buf))
    ∧ (∀ e ∈ buf.take (partition_point (fun x => decide (now < x.key)) buf),
        e ∈ (check_osc_bundles now buf ctr).2.1)
    ∧ (∀ e ∈ (check_osc_bundles now buf ctr).2.1,
        e ∈ buf.take (partition_point (fun x => decide (now < x.key)) buf) ∨ ctr ≤ e.uuid)
    ∧ ((∀ e ∈ buf, e.uuid < ctr) → (buf.map BufEntry.uuid).Nodup →
        ∀ e ∈ buf.drop (partition_point (fun x => decide (now < x.key)) buf),
          e.uuid ∉ (check_osc_bundles now buf ctr).2.1.map BufEntry.uuid) := by
  have hch : check_osc_bundles now buf ctr =
      apply_drained now
        (buf.drop (partition_point (fun x => decide (now < x.key)) buf))
        (buf.take (partition_point (fun x => decide (now < x.key)) buf)) ctr := rfl
  obtain ⟨hctr, hkeep, hfresh⟩ := apply_drained_effects now
    (buf.drop (partition_point (fun x => decide (now < x.key)) buf))
    (buf.take (partition_point (fun x => decide (now < x.key)) buf)) ctr
  refine ⟨?_, ?_, ?_, ?_, ?_, ?_, ?_⟩
  · intro e he
    rw [take_partition_point] at he
    have hp := List.mem_takeWhile_imp he
    simp only [decide_eq_true_eq] at hp
    exact hp
  · intro e he
    rw [drop_partition_point] at he
    exact dropWhile_key_le now buf hsorted e he
  · rw [hch, apply_drained_fst]
  · exact List.Pairwise.sublist (List.drop_sublist _ _) hsorted
  · intro e he
    rw [hch]
    exact hkeep e he
  · intro e he
    rw [hch] at he
    exact hfresh e he
  · intro hu hnodup e he hmem
    rw [hch] at hmem
    obtain ⟨x, hxfinal, hxu⟩ := List.mem_map.mp hmem
    have he_buf : e ∈ buf := List.mem_of_mem_drop he
    rcases hfresh x hxfinal with hx | hx
    · have hnodup' := hnodup
      rw [← List.take_append_drop (partition_point (fun x => decide (now < x.key)) buf) buf,
        List.map_append] at hnodup'
      have hdisj := (List.nodup_append.mp hnodup').2.2
      exact hdisj (List.mem_map_of_mem BufEntry.uuid hx)
        (hxu ▸ List.mem_map_of_mem BufEntry.uuid he)
    · have := hu e he_buf
      omega

/-- C3 counterexample: two due entries (release times 5 and 3, both ≤ now=7)
are returned as `[10, 11]` — the LATER entry (uuid 10, release 5) first — not
in earliest-release-time-first order `[11, 10]`. -/
theorem drain_order_counterexample :
    (BufEntry.mk (ntp_time 0 5) 0 5 [] 10).key ≤ 7
    ∧ (BufEntry.mk (ntp_time 0 3) 0 3 [] 11).key ≤ 7
    ∧ (BufEntry.mk (ntp_time 0 3) 0 3 [] 11).key <
        (BufEntry.mk (ntp_time 0 5) 0 5 [] 10).key
    ∧ (check_osc_bundles 7
        [BufEntry.mk (ntp_time 0 5) 0 5 [] 10, BufEntry.mk (ntp_time 0 3) 0 3 [] 11]
        100).1.map Prod.fst = [10, 11]
    ∧ ([10, 11] : List Nat) ≠ [11, 10] :=
  ⟨by decide, by decide, by decide, rfl, by decide⟩

theorem check_osc_bundles_drain_witness :
    List.Pairwise (fun a b => b.key ≤ a.key)
      [BufEntry.mk (ntp_time 0 5) 0 5 [] 10, BufEntry.mk (ntp_time 0 3) 0 3 [] 11]
    ∧ (check_osc_bundles 7
        [BufEntry.mk (ntp_time 0 5) 0 5 [] 10, BufEntry.mk (ntp_time 0 3) 0 3 [] 11]
        100).1.map Prod.fst =
      (([BufEntry.mk (ntp_time 0 5) 0 5 [] 10, BufEntry.mk (ntp_time 0 3) 0 3 [] 11] :
          List BufEntry).drop
        (partition_point (fun x => decide ((7 : Nat) < x.key))
          [BufEntry.mk (ntp_time 0 5) 0 5 [] 10,
           BufEntry.mk (ntp_time 0 3) 0 3 [] 11])).map BufEntry.uuid :=
  ⟨by simp [ntp_time],
   (check_osc_bundles_drain 7
      [BufEntry.mk (ntp_time 0 5) 0 5 [] 10, BufEntry.mk (ntp_time 0 3) 0 3 [] 11]
      100 (by simp [ntp_time])).2.2.1⟩

/-- C4 (amended): installing a new `(deadline task, expected-echo map)`
state at the end of `handle_avatar_change` OVERWRITES the previous state
without aborting its deadline task (the abort-action list of the install
step is always empty); an abort is performed only by the echo path, exactly
when the expected-echo map becomes empty. -/
theorem unlock_state_install :
    (∀ (prev : Option (Nat × List (List Char × ℚ))) (t : Nat) (m : List (List Char × ℚ)),
      install_unlock_state prev t m = (some (t, m), []))
    ∧ (∀ (hdl : Nat) (m : List (List Char × ℚ)) (addr : List Char) (args : List MOscArg),
      (handle_echo (some (hdl, m)) addr args).2 =
        if (map_remove m addr).2 = [] then [hdl] else [])
    ∧ (∀ (addr : List Char) (args : List MOscArg), handle_echo none addr args = (none, [])) := by
  refine ⟨fun _ _ _ => rfl, ?_, fun _ _ => rfl⟩
  intro hdl m addr args
  simp only [handle_echo]
  by_cases he : (map_remove m addr).2 = [] <;> simp [he]

/-- C4 counterexample: installing a fresh state over an existing one (whose
deadline task has id 5) performs no abort at all — in particular task 5 is
not aborted, contradicting the claimed invariant. -/
theorem install_no_abort_counterexample :
    (install_unlock_state (some (5, [(("/avatar/parameters/X").data, (1 : ℚ))])) 6 []).2 = []
    ∧ (5 : Nat) ∉
        (install_unlock_state (some (5, [(("/avatar/parameters/X").data, (1 : ℚ))])) 6 []).2 :=
  ⟨rfl, by simp [install_unlock_state]⟩

theorem dedup_go_head (cur : Nat) : ∀ t : List Nat, ∃ rest, rust_dedup_go cur t = cur :: rest
  | [] => ⟨[], rfl⟩
  | b :: rest => by
    simp only [rust_dedup_go]
    split
    · exact dedup_go_head cur rest
    · exact ⟨rust_dedup_go b rest, rfl⟩

theorem dedup_go_chain (cur : Nat) : ∀ t : List Nat,
    List.Chain' (fun a b => a ≠ b) (rust_dedup_go cur t)
  | [] => by simp [rust_dedup_go]
  | b :: rest => by
    simp only [rust_dedup_go]
    split
    · exact dedup_go_chain cur rest
    · obtain ⟨r, hr⟩ := dedup_go_head b rest
      rw [hr]
      exact List.Chain'.cons (by assumption) (hr ▸ dedup_go_chain b rest)

theorem dedup_go_mem (cur : Nat) : ∀ (t : List Nat) (x : Nat),
    x ∈ rust_dedup_go cur t ↔ x = cur ∨ x ∈ t
  | [], x => by simp [rust_dedup_go]
  | b :: rest, x => by
    simp only [rust_dedup_go]
    split
    · rename_i hcb
      subst hcb
      rw [dedup_go_mem cur rest x]
      simp only [List.mem_cons]
      tauto
    · simp only [List.mem_cons, dedup_go_mem b rest x]

theorem dedup_go_skip_run (a : Nat) : ∀ (n : Nat) (t : List Nat),
    rust_dedup_go a (List.replicate n a ++ t) = rust_dedup_go a t
  | 0, t => rfl
  | n + 1, t => by
    simp only [List.replicate_succ, List.cons_append, rust_dedup_go, if_pos rfl]
    exact dedup_go_skip_run a n t

theorem dedup_go_next (a : Nat) (t : List Nat) (h : ∀ b, t.head? = some b → b ≠ a) :
    rust_dedup_go a t = a :: rust_dedup t := by
  cases t with
  | nil => rfl
  | cons b rest =>
    have hb : b ≠ a := h b rfl
    simp only [rust_dedup_go, rust_dedup]
    rw [if_neg (fun hab => hb hab.symm)]

theorem rust_dedup_runs : ∀ runs : List (Nat × Nat),
    (runs.map Prod.fst).Nodup → (∀ r ∈ runs, 0 < r.2) →
    rust_dedup ((runs.map (fun r => List.replicate r.2 r.1)).flatten) = runs.map Prod.fst
  | [], _, _ => rfl
  | (a, n) :: rest, hnodup, hpos => by
    obtain ⟨m, hm⟩ : ∃ m, n = m + 1 := by
      have := hpos (a, n) (by simp)
      exact ⟨n - 1, by omega⟩
    subst hm
    simp only [List.map_cons, List.flatten_cons, List.replicate_succ, List.cons_append]
    show rust_dedup_go a _ = _
    rw [dedup_go_skip_run a m]
    have hnext : ∀ b, ((rest.map (fun r => List.replicate r.2 r.1)).flatten).head? = some b → b ≠ a := by
      intro b hb hba
      subst hba
      cases rest with
      | nil => simp at hb
      | cons q qs =>
        obtain ⟨k, hk⟩ : ∃ k, q.2 = k + 1 := by
          have := hpos q (by simp)
          exact ⟨q.2 - 1, by omega⟩
        simp only [List.map_cons, List.flatten_cons, hk, List.replicate_succ,
          List.cons_append, List.head?_cons, Option.some.injEq] at hb
        have : q.1 ∈ (q :: qs).map Prod.fst := by simp
        rw [hb] at this
        exact (List.nodup_cons.mp hnodup).1 this
    rw [dedup_go_next _ _ hnext]
    rw [rust_dedup_runs rest (List.nodup_cons.mp hnodup).2
      (fun r hr => hpos r (List.mem_cons_of_mem _ hr))]

/-- C5 (amended): `Vec::dedup` removes only CONSECUTIVE duplicates, so the
constructor binds one socket per port of the consecutively-deduplicated
list: no two adjacent bound ports are equal, the bound ports are exactly the
ports occurring in the list, and when all duplicates are adjacent (the list
is a sequence of runs with distinct values) exactly one socket is bound per
unique port; a failed bind of any socket fails the whole construction. -/
theorem multiplexer_dedup_binding :
    (∀ l : List Nat, List.Chain' (fun a b => a ≠ b) (rust_dedup l))
    ∧ (∀ (l : List Nat) (p : Nat), p ∈ rust_dedup l ↔ p ∈ l)
    ∧ (∀ runs : List (Nat × Nat), (runs.map Prod.fst).Nodup → (∀ r ∈ runs, 0 < r.2) →
        rust_dedup ((runs.map (fun r => List.replicate r.2 r.1)).flatten) = runs.map Prod.fst)
    ∧ (∀ (bind_fails : Nat → Bool) (l : List Nat),
        multiplexer_new bind_fails l = Except.error () ↔
          ∃ p ∈ rust_dedup l, bind_fails p = true) := by
  refine ⟨?_, ?_, rust_dedup_runs, ?_⟩
  · intro l
    cases l with
    | nil => simp [rust_dedup]
    | cons a rest => exact dedup_go_chain a rest
  · intro l p
    cases l with
    | nil => simp [rust_dedup]
    | cons a rest =>
      show p ∈ rust_dedup_go a rest ↔ _
      rw [dedup_go_mem a rest p]
      simp
  · intro bind_fails l
    simp only [multiplexer_new]
    split
    · simp only [true_iff]
      rename_i hany
      exact List.any_eq_true.mp hany
    · rename_i hany
      constructor
      · intro he
        cases he
      · intro hex
        exact absurd (List.any_eq_true.mpr hex) hany

theorem multiplexer_dedup_binding_witness :
    rust_dedup [9100, 9101, 9101] = [9100, 9101] := by
  have h := multiplexer_dedup_binding.2.2.1 [(9100, 1), (9101, 2)] (by decide) (by decide)
  exact h

/-- C5 counterexample: for the forward-port list `[9100, 9101, 9100]` the
non-adjacent duplicate survives `Vec::dedup`, so port 9100 gets TWO bind
attempts — not exactly one socket per unique port regardless of position. -/
theorem dedup_nonadjacent_counterexample :
    rust_dedup [9100, 9101, 9100] = [9100, 9101, 9100]
    ∧ List.count 9100 [9100, 9101, 9100] = 2
    ∧ ¬ List.count 9100 [9100, 9101, 9100] = 1
    ∧ multiplexer_new (fun _ => false) [9100, 9101, 9100] = Except.ok [9100, 9101, 9100] :=
  ⟨rfl, by decide, by decide, rfl⟩

/-- C6 (code bug): the UTF-16 paths of `vecu8_to_str` assemble each code
unit as `(first_byte >> 8) | second_byte` — a right shift that zeroes the
high byte — instead of `(first_byte << 8) | second_byte`.  On the UTF-16 BE
file `FE FF 01 02` the code yields code point `0x02` where the specified
decoding yields `0x0102` (mirrored for LE), so the decoder does not decode
UTF-16 as the claim states. -/
theorem utf16_decode_bug :
    vecu8_to_str [0xFE, 0xFF, 0x01, 0x02] = some [0x02]
    ∧ utf16_decode_spec true [0xFE, 0xFF, 0x01, 0x02] = some [0x0102]
    ∧ vecu8_to_str [0xFF, 0xFE, 0x01, 0x02] = some [0x01]
    ∧ utf16_decode_spec false [0xFF, 0xFE, 0x01, 0x02] = some [0x0201]
    ∧ vecu8_to_str [0xFE, 0xFF, 0x01, 0x02] ≠ utf16_decode_spec true [0xFE, 0xFF, 0x01, 0x02]
    ∧ vecu8_to_str [0xFF, 0xFE, 0x01, 0x02] ≠ utf16_decode_spec false [0xFF, 0xFE, 0x01, 0x02]
    ∧ Nat.shiftRight 0x01 8 = 0 := by
  refine ⟨rfl, rfl, rfl, rfl, by decide, by decide, rfl⟩

/-- C7: whenever decryption reports an error, `decrpyt` returns the
original input bytes unchanged together with that error (so the unlock
continues with the file treated as legacy plaintext); when it reports no
error, the returned bytes are the successfully decrypted ones. -/
theorem decrpyt_failure_fallback (dec : List Nat → List Nat) (file : List Nat) :
    ((decrpyt dec file).2.isSome → (decrpyt dec file).1 = file)
    ∧ ((decrpyt dec file).2 = none →
        decrypt_padded dec file = some (decrpyt dec file).1) := by
  cases h : decrypt_padded dec file with
  | none => simp [decrpyt, h]
  | some v => simp [decrpyt, h]

theorem decrpyt_failure_fallback_witness :
    ((decrpyt (fun b => b) [0]).2).isSome
    ∧ (decrpyt (fun b => b) [0]).1 = [0] :=
  ⟨by decide, (decrpyt_failure_fallback (fun b => b) [0]).1 (by decide)⟩

/-- C10 (amended): the key path is built with `set_file_name` +
`set_extension("key")`, so for an id whose last dot is preceded by a
nonempty prefix the portion after that dot is REPLACED by `key`
(`a.b` → `a.key`); but an id with no dot, or a hidden-file-style id whose
only dot is the leading one, gets `.key` APPENDED. -/
theorem key_file_name_extension (id : List Char) :
    (∀ before after, last_dot_split id = some (before, after) → before ≠ [] →
      key_file_name id = before ++ ('.' :: ("key").data))
    ∧ (last_dot_split id = none → key_file_name id = id ++ ('.' :: ("key").data))
    ∧ (∀ after, last_dot_split id = some ([], after) →
      key_file_name id = id ++ ('.' :: ("key").data)) := by
  refine ⟨?_, ?_, ?_⟩
  · intro b a hs hb
    simp [key_file_name, rust_file_stem, hs, hb]
  · intro hs
    simp [key_file_name, rust_file_stem, hs]
  · intro a hs
    simp [key_file_name, rust_file_stem, hs]

theorem key_file_name_extension_witness :
    last_dot_split ("a.b").data = some (("a").data, ("b").data)
    ∧ key_file_name ("a.b").data = ("a.key").data := by
  refine ⟨by decide, ?_⟩
  have h := (key_file_name_extension ("a.b").data).1 ("a").data ("b").data (by decide) (by decide)
  exact h.trans (by decide)

/-- C10 counterexample: the id `.b` contains a dot, yet `.key` is appended
(`.b` → `.b.key`), not substituted for the portion after the last dot. -/
theorem hidden_file_append_counterexample :
    ('.' ∈ (".b").data)
    ∧ key_file_name (".b").data = (".b.key").data
    ∧ key_file_name (".b").data ≠ (".key").data :=
  ⟨by decide, rfl, by decide⟩
